import Mathlib

/-!
Verification of the ordered multi-group membership list (UserGroups) and the
debounced preview synchronizer (ScheduleOverrideForm) of the oncall
grafana-plugin.

The nested group model and its operations are embedded from
`src/grafana-plugin/src/components/UserGroups/UserGroups.tsx`; the form and
synchronizer state comes from
`src/grafana-plugin/src/containers/RotationForm/ScheduleOverrideForm.tsx`.
The helper module `UserGroups.helpers` (`toPlainArray` / `fromPlainArray`) and
the hook `utils/hooks.useDebouncedCallback` belong to the repository but are
not under `src/`; those parts are modelled from the specification, as flagged
in their doc comments.
-/

/-- Member identifiers are opaque strings (the source's `User['pk']`). -/
abbrev MemberId := String

/-- A Group List: an ordered sequence of groups of member identifiers
(the source's `Array<Array<User['pk']>>`). -/
abbrev GroupList := List (List MemberId)

/-- Inner loop of `handleDeleteUser` (UserGroups.tsx lines 43-51): `k` is the
flat position of the first user of the group still to be scanned; returns the
position `j` within the group of the user whose flat position equals
`index`. -/
def findUserAux : List MemberId → Nat → Nat → Option Nat
  | [], _, _ => none
  | _ :: us, k, index =>
    if k = index then some 0
    else (findUserAux us (k + 1) index).map (fun j => j + 1)

/-- Outer loop of `handleDeleteUser` (UserGroups.tsx lines 40-52): `k` is the
flat position of the current group's separator slot; returns the pair
`(i, j)` locating the member whose flat position equals `index`. -/
def findMemberAux : GroupList → Nat → Nat → Option (Nat × Nat)
  | [], _, _ => none
  | g :: gs, k, index =>
    match findUserAux g (k + 1) index with
    | some j => some (0, j)
    | none => (findMemberAux gs (k + 1 + g.length) index).map (fun p => (p.1 + 1, p.2))

/-- `handleDeleteUser` (UserGroups.tsx lines 37-53). `some r` means `onChange`
is invoked with `r`; `none` means the loop falls through without invoking
`onChange` (silent no-op). The located member is removed from its group and
every group left empty is filtered out. -/
def handleDeleteUser (value : GroupList) (index : Nat) : Option GroupList :=
  match findMemberAux value 0 index with
  | none => none
  | some (i, j) =>
    some ((value.set i ((value.getD i []).eraseIdx j)).filter (fun g => !g.isEmpty))

/-- Length of the flat drag sequence: one separator per group plus all the
members (the counter `k` of `handleDeleteUser` ranges over exactly these
positions). -/
def flatLen (value : GroupList) : Nat := value.length + (value.map List.length).sum

/-- Flat position of member `j` of group `i` in the separator-inclusive
flattening: the `i + 1` separators up to and including group `i`'s own, the
members of the earlier groups, then `j`. -/
def flatPosOfMember (value : GroupList) (i j : Nat) : Nat :=
  i + 1 + ((value.take i).map List.length).sum + j

/-- Core of `handleUserAdd` (UserGroups.tsx lines 61-70): append the member to
the last group, creating a first group when none exists. -/
def appendToLastGroup (value : GroupList) (pk : MemberId) : GroupList :=
  match value.getLast? with
  | none => [[pk]]
  | some last => value.dropLast ++ [last ++ [pk]]

/-- `handleUserAdd` (UserGroups.tsx lines 55-73): a falsy (empty) identifier is
a no-op (`none`, `onChange` not invoked); otherwise `onChange` receives the
group list with the member appended to the last group. -/
def handleUserAdd (value : GroupList) (pk : MemberId) : Option GroupList :=
  if pk = "" then none else some (appendToLastGroup value pk)

/-- Item of the flat drag sequence (the source's `UserGroups.types` `Item`),
spec section 3 "Flat Item": a tagged union of a member (with its owning group
index) or a group separator. -/
inductive FlatItem where
  | member (data : MemberId) (ownerGroupIndex : Nat)
  | separator (groupIndex : Nat)
deriving DecidableEq

/-- Modelled from the spec: `flatten(groupList, multiGroupMode)` of section 4.1
(`UserGroups.helpers.toPlainArray` is repository code not under `src/`).
Group `i` contributes its separator (emitted only when multi-group mode is on,
per the Flat Item invariant of section 3) immediately before its members,
groups in Group List order; `i` is the index of the first group of the
remaining list. -/
def flattenFrom (i : Nat) (m : Bool) : GroupList → List FlatItem
  | [] => []
  | g :: gs =>
    (if m then [FlatItem.separator i] else []) ++
      g.map (fun u => FlatItem.member u i) ++ flattenFrom (i + 1) m gs

/-- Modelled from the spec: `flatten` of section 4.1, starting at group 0. -/
def flatten (g : GroupList) (m : Bool) : List FlatItem := flattenFrom 0 m g

/-- The flat sequence handed to the drag surface (`toPlainArray(value)`,
UserGroups.tsx line 75). The rendering in src (UserGroups.tsx lines 150-159)
shows the sequence always carries separator items — in single-group mode they
are rendered as `null`, not omitted — so the drag sequence is the multi-group
flattening. -/
def toPlainArray (g : GroupList) : List FlatItem := flatten g true

/-- Payload of a member item; separators carry no member. -/
def memberData : FlatItem → Option MemberId
  | FlatItem.member d _ => some d
  | FlatItem.separator _ => none

/-- Modelled from the spec: running state of `unflatten` (section 4.1) — a
separator starts a new (empty) group, a member joins the current group
(creating a first group when none exists yet). The groups are accumulated in
reverse order, current group first. -/
def unflattenRev : List FlatItem → GroupList → GroupList
  | [], acc => acc.reverse
  | FlatItem.separator _ :: rest, acc => unflattenRev rest ([] :: acc)
  | FlatItem.member d _ :: rest, acc =>
    match acc with
    | [] => unflattenRev rest [[d]]
    | g :: gs => unflattenRev rest ((g ++ [d]) :: gs)

/-- Modelled from the spec: `unflatten(flatSequence, multiGroupMode)` of
section 4.1, the inverse transform of `flatten`. In single-group mode the
separator items are ignored entirely (section 4.2 edge cases) and the members
form one implicit group. A separator followed by zero members yields an empty
group, which callers are expected to prune. -/
def unflatten (s : List FlatItem) (m : Bool) : GroupList :=
  if m then unflattenRev s []
  else
    match s.filterMap memberData with
    | [] => []
    | ms => [ms]

/-- Well-formed Group List: no dangling empty groups except possibly the last
one. -/
def wellFormedGL (g : GroupList) : Bool := g.dropLast.all (fun gr => !gr.isEmpty)

/-- `arrayMoveImmutable` of the external `array-move` package
(UserGroups.tsx line 79), per its documented semantics: remove the element at
`fromIdx` and splice it back in at `toIdx` (an index at or beyond the end
appends at the end); a no-op when `fromIdx` is out of range. -/
def arrayMoveImmutable (l : List FlatItem) (fromIdx toIdx : Nat) : List FlatItem :=
  match l.get? fromIdx with
  | none => l
  | some x =>
    let removed := l.eraseIdx fromIdx
    removed.take toIdx ++ x :: removed.drop toIdx

/-- Modelled from the spec: `fromPlainArray` (`UserGroups.helpers` is
repository code not under `src/`) is `unflatten` in multi-group form plus the
pruning of empty groups (section 3: "empty groups are pruned"; section 4.1:
callers prune empty groups "unless it is the designated current drop target"
group). The second argument — the call site UserGroups.tsx line 81 passes
`newIndex > items.length` — designates a drop target past the end of the
sequence: the trailing moved member then forms a new trailing group of its own
(section 4.2: "append a new trailing group containing only that member"). -/
def fromPlainArray (items : List FlatItem) (createNewGroup : Bool) : GroupList :=
  match items.getLast? with
  | some (FlatItem.member d _) =>
    if createNewGroup then
      ((unflattenRev items.dropLast []).filter (fun g => !g.isEmpty)) ++ [[d]]
    else (unflattenRev items []).filter (fun g => !g.isEmpty)
  | _ => (unflattenRev items []).filter (fun g => !g.isEmpty)

/-- `onSortEnd` (UserGroups.tsx lines 77-84): flatten, apply the move of
`oldIndex` to `newIndex` on the flat sequence, and unflatten, creating a new
trailing group when the drop index lies beyond the whole flat sequence. -/
def onSortEnd (value : GroupList) (oldIndex newIndex : Nat) : GroupList :=
  let items := toPlainArray value
  let newPlainArray := arrayMoveImmutable items oldIndex newIndex
  fromPlainArray newPlainArray (decide (items.length < newIndex))

/-- The parameter snapshot `params` (ScheduleOverrideForm.tsx lines 123-132):
an immutable record recomputed from the time window and the group list. -/
structure RotationParams where
  rotation_start : String
  shift_start : String
  shift_end : String
  rolling_users : GroupList
  frequency : Option Nat
deriving DecidableEq

/-- The slice of the override form's state the preview settle step touches:
the modal-visibility flag `isOpen` (ScheduleOverrideForm.tsx line 71) and the
current target snapshot `params`. -/
structure OverrideFormState where
  isOpen : Bool
  params : RotationParams
deriving DecidableEq

/-- Resolve handler of `updatePreview` (ScheduleOverrideForm.tsx lines
169-175): when `updateRotationPreview` resolves, the `.then` callback runs
`setIsOpen(true)` unconditionally. The source performs no comparison between
the snapshot the result was computed for and the current target snapshot. -/
def handlePreviewResolved (st : OverrideFormState) (resolvedFor : RotationParams) :
    OverrideFormState :=
  { st with isOpen := true }

/-- A concrete snapshot A (one user group holding u1). -/
def snapA : RotationParams :=
  { rotation_start := "2024-01-01T00:00:00Z"
    shift_start := "2024-01-01T00:00:00Z"
    shift_end := "2024-01-02T00:00:00Z"
    rolling_users := [["u1"]]
    frequency := none }

/-- A concrete snapshot B (one user group holding u2), differing from A. -/
def snapB : RotationParams :=
  { rotation_start := "2024-01-01T00:00:00Z"
    shift_start := "2024-01-01T00:00:00Z"
    shift_end := "2024-01-02T00:00:00Z"
    rolling_users := [["u2"]]
    frequency := none }

/-- Modelled from the spec: trailing-edge debounce of section 4.3
(`utils/hooks.useDebouncedCallback`, ScheduleOverrideForm.tsx line 177, is
repository code not under `src/`). Given the increasing times of the calls to
the debounced function, counts the timer expirations — each expiration issues
exactly one preview request: the timer (re)set at a call fires unless the next
call arrives strictly within the window `w`, which resets it. -/
def fireCount (w : Nat) : List Nat → Nat
  | [] => 0
  | [_] => 1
  | t1 :: t2 :: rest => (if t2 < t1 + w then 0 else 1) + fireCount w (t2 :: rest)

/-- Modelled from the spec: the times at which the debounce timer of
section 4.3 fires (the timer set at call time `t` fires at `t + w` unless the
next call arrives strictly within the window). -/
def fireTimes (w : Nat) : List Nat → List Nat
  | [] => []
  | [t1] => [t1 + w]
  | t1 :: t2 :: rest => (if t2 < t1 + w then [] else [t1 + w]) ++ fireTimes w (t2 :: rest)

/-- Issue times of preview requests of one form instance: the mount effect
(ScheduleOverrideForm.tsx lines 163-167) calls `updatePreview` directly at
time 0 when the shift is new, and every params change runs the debounced
`updatePreview` (lines 177-179). -/
def requestIssueTimes (isNew : Bool) (w : Nat) (changeTimes : List Nat) : List Nat :=
  (if isNew then [0] else []) ++ fireTimes w changeTimes

/-- Number of preview requests in flight at time `t`, when every request takes
`latency` to resolve: those issued at or before `t` and not yet resolved. -/
def inFlightCount (issues : List Nat) (latency t : Nat) : Nat :=
  issues.countP (fun s => decide (s ≤ t) && decide (t < s + latency))

/-- Number of debounce timers pending at time `t` for the increasing call
times `ts`: the timer set at a call is pending from that call until it fires
(`w` later) or is reset by the next call, whichever comes first. -/
def timerPendingCount (w t : Nat) : List Nat → Nat
  | [] => 0
  | [t1] => if t1 ≤ t ∧ t < t1 + w then 1 else 0
  | t1 :: t2 :: rest =>
    (if t1 ≤ t ∧ t < min (t1 + w) t2 then 1 else 0) + timerPendingCount w t (t2 :: rest)

/-- The persisted shift the form hydrates from (ScheduleOverrideForm.tsx
lines 134-141 use `shift_start`, `shift_end` and `rolling_users`). -/
structure ShiftData where
  shift_start : String
  shift_end : String
  rolling_users : GroupList

/-- Initial Group List of the form: `useState([[]])`
(ScheduleOverrideForm.tsx line 90) — a list holding one empty group. -/
def initialUserGroups : GroupList := [[]]

/-- Hydration effect (ScheduleOverrideForm.tsx lines 134-141): when the
persisted shift is available the group list is replaced by its
`rolling_users`; otherwise it is left as it is. -/
def hydrateUserGroups (shift : Option ShiftData) (current : GroupList) : GroupList :=
  match shift with
  | some s => s.rolling_users
  | none => current

/-! ## Lemmas about the delete-loop search -/

theorem findUserAux_none_of_le (us : List MemberId) (k index : Nat)
    (h : k + us.length ≤ index) : findUserAux us k index = none := by
  induction us generalizing k with
  | nil => rfl
  | cons u us ih =>
    simp only [findUserAux]
    rw [if_neg (by simp at h; omega)]
    rw [ih (k + 1) (by simp at h ⊢; omega)]
    rfl

theorem findMemberAux_none_of_le (value : GroupList) (k index : Nat)
    (h : k + flatLen value ≤ index) : findMemberAux value k index = none := by
  induction value generalizing k with
  | nil => rfl
  | cons g gs ih =>
    simp only [findMemberAux]
    rw [findUserAux_none_of_le g (k + 1) index
      (by simp [flatLen] at h; omega)]
    rw [ih (k + 1 + g.length) (by simp [flatLen] at h ⊢; omega)]
    rfl

theorem findUserAux_hit (us : List MemberId) (k j : Nat) (h : j < us.length) :
    findUserAux us k (k + j) = some j := by
  induction us generalizing k j with
  | nil => simp at h
  | cons u us ih =>
    simp only [findUserAux]
    cases j with
    | zero => simp
    | succ j =>
      rw [if_neg (by omega)]
      have : k + (j + 1) = (k + 1) + j := by omega
      rw [this, ih (k + 1) j (by simp at h; omega)]
      rfl

theorem findMemberAux_hit (value : GroupList) (k i j : Nat) (gi : List MemberId)
    (hg : value.get? i = some gi) (hj : j < gi.length) :
    findMemberAux value k (k + (i + 1 + ((value.take i).map List.length).sum + j))
      = some (i, j) := by
  induction value generalizing k i with
  | nil => simp at hg
  | cons g gs ih =>
    cases i with
    | zero =>
      simp only [List.get?] at hg
      injection hg with hg
      subst hg
      simp only [findMemberAux, List.take_zero, List.map_nil, List.sum_nil]
      have harith : k + (0 + 1 + 0 + j) = (k + 1) + j := by omega
      rw [harith, findUserAux_hit g (k + 1) j hj]
    | succ i =>
      simp only [List.get?] at hg
      simp only [findMemberAux, List.take_succ_cons, List.map_cons, List.sum_cons]
      have harith : k + (i + 1 + 1 + (g.length + ((gs.take i).map List.length).sum) + j)
          = (k + 1 + g.length) + (i + 1 + ((gs.take i).map List.length).sum + j) := by
        omega
      rw [findUserAux_none_of_le g (k + 1) _ (by omega), harith,
        ih (k + 1 + g.length) i hg]
      rfl

/-! ## Lemmas about `getD` -/

theorem getD_eq_of_get? {α : Type} (l : List α) (i : Nat) (a d : α)
    (h : l.get? i = some a) : l.getD i d = a := by
  rw [List.get?_eq_getElem?] at h
  simp [List.getD, h]

/-- C3: for every group list and every flat index out of range of the current
flattening, `handleDeleteUser` is a silent no-op — the search loop falls
through, `onChange` is never invoked (result `none`), and no failure is
possible (the embedding is a total function). -/
theorem c3_out_of_range_noop (value : GroupList) (index : Nat)
    (h : flatLen value ≤ index) : handleDeleteUser value index = none := by
  unfold handleDeleteUser
  rw [findMemberAux_none_of_le value 0 index (by omega)]

/-- Witness for C3 at a concrete input: the flat sequence of
`[["u1","u2"],["u3"]]` has length 5, so index 7 is out of range and the
removal is a no-op. -/
theorem c3_out_of_range_noop_witness :
    handleDeleteUser [["u1", "u2"], ["u3"]] 7 = none :=
  c3_out_of_range_noop [["u1", "u2"], ["u3"]] 7 (by decide)

/-- C5: `handleUserAdd` with an empty (falsy) identifier is a no-op; with a
real identifier it appends the member to the last group, creating a first
group when the list has no groups; it never fails (it is a total function). -/
theorem c5_add_member (value gs : GroupList) (last : List MemberId) (pk : MemberId) :
    handleUserAdd value "" = none ∧
    (pk ≠ "" → handleUserAdd [] pk = some [[pk]]) ∧
    (pk ≠ "" → handleUserAdd (gs ++ [last]) pk = some (gs ++ [last ++ [pk]])) := by
  refine ⟨by simp [handleUserAdd], fun h => by simp [handleUserAdd, h, appendToLastGroup],
    fun h => ?_⟩
  simp [handleUserAdd, h, appendToLastGroup, List.getLast?_concat]

/-- Witness for C5 at concrete inputs: adding to `[["u1"]]` with a missing
identifier is a no-op, `addMember("u1")` on the empty Group List yields
`[["u1"]]`, and `addMember("u2")` then appends to the last group. -/
theorem c5_add_member_witness :
    handleUserAdd [["u1"]] "" = none ∧
    handleUserAdd [] "u1" = some [["u1"]] ∧
    handleUserAdd [["u1"]] "u2" = some [["u1", "u2"]] :=
  ⟨(c5_add_member [["u1"]] [] [] "u1").1,
   (c5_add_member [] [] [] "u1").2.1 (by decide),
   (c5_add_member [["u1"]] [] ["u1"] "u2").2.2 (by decide)⟩

/-- C6: `handleDeleteUser` at the flat position of member `j` of group `i`
removes exactly that member from its owning group and prunes every group left
with zero members. -/
theorem c6_remove_member (value : GroupList) (i j : Nat) (gi : List MemberId)
    (hg : value.get? i = some gi) (hj : j < gi.length) :
    handleDeleteUser value (flatPosOfMember value i j)
      = some ((value.set i (gi.eraseIdx j)).filter (fun g => !g.isEmpty)) := by
  unfold handleDeleteUser flatPosOfMember
  have h0 : i + 1 + ((value.take i).map List.length).sum + j
      = 0 + (i + 1 + ((value.take i).map List.length).sum + j) := by omega
  rw [h0, findMemberAux_hit value 0 i j gi hg hj]
  show some ((value.set i ((value.getD i []).eraseIdx j)).filter (fun g => !g.isEmpty)) = _
  rw [getD_eq_of_get? value i gi [] hg]

/-- Witness for C6 at the spec's concrete scenario: in
`[["u1","u2"],["u3"]]` the member u1 sits at flat position 1 (after group 0's
separator); removing there yields `[["u2"],["u3"]]`. -/
theorem c6_remove_member_witness :
    handleDeleteUser [["u1", "u2"], ["u3"]] 1 = some [["u2"], ["u3"]] :=
  c6_remove_member [["u1", "u2"], ["u3"]] 0 0 ["u1", "u2"] rfl (by decide)

/-- C10: whenever `handleDeleteUser` does fire `onChange`, the group list it
passes contains no empty group at all — the final filter drops every
zero-length group, including groups that were already empty before the
removal. -/
theorem c10_no_empty_groups (value : GroupList) (index : Nat) (r : GroupList)
    (h : handleDeleteUser value index = some r) :
    r.all (fun g => !g.isEmpty) = true := by
  unfold handleDeleteUser at h
  cases hfind : findMemberAux value 0 index with
  | none => rw [hfind] at h; exact absurd h (by simp)
  | some p =>
    rw [hfind] at h
    injection h with h
    subst h
    simp only [List.all_eq_true]
    intro g hgmem
    exact (List.mem_filter.mp hgmem).2

/-- Witness for C10 at a concrete input: `[[],["u1","u2"]]` holds a
pre-existing empty group; deleting u2 (flat position 3) returns `[["u1"]]`,
in which the untouched empty group has also been dropped. -/
theorem c10_no_empty_groups_witness :
    (([["u1"]] : GroupList).all (fun g => !g.isEmpty)) = true :=
  c10_no_empty_groups [[], ["u1", "u2"]] 3 [["u1"]] rfl

/-! ## Lemmas about flattening and unflattening -/

theorem unflattenRev_map_member (g : List MemberId) (i : Nat) (rest : List FlatItem)
    (cur : List MemberId) (acc : GroupList) :
    unflattenRev (g.map (fun u => FlatItem.member u i) ++ rest) (cur :: acc)
      = unflattenRev rest ((cur ++ g) :: acc) := by
  induction g generalizing cur with
  | nil => simp
  | cons u g ih =>
    simp only [List.map_cons, List.cons_append, unflattenRev, List.append_eq]
    rw [ih (cur ++ [u])]
    simp

theorem unflattenRev_flattenFrom (gs : GroupList) (i : Nat) (t : List FlatItem)
    (acc : GroupList) :
    unflattenRev (flattenFrom i true gs ++ t) acc = unflattenRev t (gs.reverse ++ acc) := by
  induction gs generalizing i acc with
  | nil => simp [flattenFrom]
  | cons g gs ih =>
    simp only [flattenFrom, if_pos, List.append_assoc, List.cons_append, List.nil_append]
    show unflattenRev (FlatItem.separator i :: _) acc = _
    rw [unflattenRev]
    rw [unflattenRev_map_member g i _ [] acc]
    rw [List.nil_append, ih (i + 1) (g :: acc)]
    simp

/-- Multi-group round trip: unflattening the multi-group flattening restores
any Group List exactly. -/
theorem unflatten_flatten_true (g : GroupList) : unflatten (flatten g true) true = g := by
  unfold unflatten flatten
  rw [if_pos rfl, ← List.append_nil (flattenFrom 0 true g),
    unflattenRev_flattenFrom g 0 [] []]
  simp [unflattenRev]

theorem filterMap_memberData_map (g : List MemberId) (i : Nat) :
    (g.map (fun u => FlatItem.member u i)).filterMap memberData = g := by
  induction g with
  | nil => rfl
  | cons u g ih => simp [List.filterMap_cons, memberData, ih]

/-- C1 (corrected): the round-trip law fails for single-group mode — the
claim says `unflatten(flatten(g, m), m) = g` for every well-formed Group List
and both modes, but `[["u1"],["u2"]]` is well formed (no dangling empty
group) and flattening it without separators erases the group boundary, so the
single-group unflattening returns the single merged group `[["u1","u2"]]`. -/
theorem c1_roundtrip_counterexample :
    wellFormedGL [["u1"], ["u2"]] = true ∧
    unflatten (flatten [["u1"], ["u2"]] false) false ≠ [["u1"], ["u2"]] := by
  constructor
  · decide
  · decide

/-- C1 (amended): for every well-formed Group List the round trip holds in
multi-group mode; in single-group mode it holds exactly when there is no group
boundary to erase — the list has at most one group and that group is
nonempty. -/
theorem c1_roundtrip_amended (g : GroupList) (h : wellFormedGL g = true) :
    unflatten (flatten g true) true = g ∧
    (g.length ≤ 1 → (∀ gr ∈ g, gr ≠ []) → unflatten (flatten g false) false = g) := by
  refine ⟨unflatten_flatten_true g, fun hlen hne => ?_⟩
  match g with
  | [] => rfl
  | [gr] =>
    have hgr : gr ≠ [] := hne gr (by simp)
    unfold unflatten flatten flattenFrom flattenFrom
    rw [if_neg (by simp)]
    simp only [if_neg, List.append_nil, List.filterMap_append, filterMap_memberData_map]
    match gr, hgr with
    | u :: gr', _ => simp
  | g1 :: g2 :: gs => simp at hlen

/-- Witness for C1 (amended) at a concrete input: the single nonempty group
`[["u1","u2"]]` round-trips in both modes. -/
theorem c1_roundtrip_amended_witness :
    unflatten (flatten [["u1", "u2"]] true) true = [["u1", "u2"]] ∧
    unflatten (flatten [["u1", "u2"]] false) false = [["u1", "u2"]] :=
  ⟨(c1_roundtrip_amended [["u1", "u2"]] (by decide)).1,
   (c1_roundtrip_amended [["u1", "u2"]] (by decide)).2 (by decide) (by decide)⟩

/-! ## Lemmas for the reorder pipeline -/

theorem flattenFrom_true_cons (i : Nat) (g : List MemberId) (gs : GroupList) :
    flattenFrom i true (g :: gs)
      = FlatItem.separator i ::
          (g.map (fun u => FlatItem.member u i) ++ flattenFrom (i + 1) true gs) := by
  simp [flattenFrom]

theorem get?_some_lt {α : Type} (l : List α) (n : Nat) (a : α)
    (h : l.get? n = some a) : n < l.length := by
  induction l generalizing n with
  | nil => cases h
  | cons b l ih =>
    cases n with
    | zero => simp
    | succ n =>
      simp only [List.get?] at h
      have := ih n h
      simp only [List.length_cons]
      omega

theorem get?_map_member (g : List MemberId) (i j : Nat) (x : MemberId)
    (h : g.get? j = some x) :
    (g.map (fun u => FlatItem.member u i)).get? j = some (FlatItem.member x i) := by
  induction g generalizing j with
  | nil => cases h
  | cons u g ih =>
    cases j with
    | zero =>
      simp only [List.get?] at h
      injection h with h
      simp [h]
    | succ j =>
      simp only [List.get?, List.map_cons] at h ⊢
      exact ih j h

theorem length_flattenFrom (gs : GroupList) (i : Nat) :
    (flattenFrom i true gs).length = flatLen gs := by
  induction gs generalizing i with
  | nil => rfl
  | cons g gs ih =>
    rw [flattenFrom_true_cons]
    simp only [List.length_cons, List.length_append, List.length_map, ih (i + 1),
      flatLen, List.map_cons, List.sum_cons]
    omega

theorem get?_flattenFrom (value : GroupList) (k i j : Nat) (gi : List MemberId)
    (x : MemberId) (hg : value.get? i = some gi) (hx : gi.get? j = some x) :
    (flattenFrom k true value).get? (i + 1 + ((value.take i).map List.length).sum + j)
      = some (FlatItem.member x (k + i)) := by
  induction value generalizing k i with
  | nil => cases hg
  | cons g gs ih =>
    cases i with
    | zero =>
      simp only [List.get?] at hg
      injection hg with hg
      subst hg
      rw [flattenFrom_true_cons]
      have harith : 0 + 1 + (((g :: gs).take 0).map List.length).sum + j = j + 1 := by
        simp only [List.take_zero, List.map_nil, List.sum_nil]
        omega
      rw [harith]
      simp only [List.get?]
      rw [List.get?_append (by simpa using get?_some_lt g j x hx)]
      rw [get?_map_member g k j x hx, Nat.add_zero]
    | succ i =>
      simp only [List.get?] at hg
      rw [flattenFrom_true_cons]
      have harith : i + 1 + 1 + (((g :: gs).take (i + 1)).map List.length).sum + j
          = (g.length + (i + 1 + ((gs.take i).map List.length).sum + j)) + 1 := by
        simp only [List.take_succ_cons, List.map_cons, List.sum_cons]
        omega
      rw [harith]
      simp only [List.get?]
      rw [List.get?_append_right (by simp)]
      simp only [List.length_map, Nat.add_sub_cancel_left]
      rw [ih (k + 1) i hg]
      have harith2 : k + 1 + i = k + (i + 1) := by omega
      rw [harith2]

theorem eraseIdx_append_left {α : Type} (l1 l2 : List α) (n : Nat) (h : n < l1.length) :
    (l1 ++ l2).eraseIdx n = l1.eraseIdx n ++ l2 := by
  induction l1 generalizing n with
  | nil => simp at h
  | cons a l1 ih =>
    cases n with
    | zero => simp [List.eraseIdx]
    | succ n =>
      simp only [List.cons_append, List.eraseIdx, List.append_eq]
      rw [ih n (by simp at h; omega)]

theorem eraseIdx_append_right_offset {α : Type} (l1 l2 : List α) (n : Nat) :
    (l1 ++ l2).eraseIdx (l1.length + n) = l1 ++ l2.eraseIdx n := by
  induction l1 with
  | nil => simp
  | cons a l1 ih =>
    have harith : (a :: l1).length + n = (l1.length + n) + 1 := by simp; omega
    rw [harith]
    simp only [List.cons_append, List.eraseIdx, List.append_eq]
    rw [ih]

theorem map_eraseIdx {α β : Type} (f : α → β) (l : List α) (n : Nat) :
    (l.map f).eraseIdx n = (l.eraseIdx n).map f := by
  induction l generalizing n with
  | nil => rfl
  | cons a l ih =>
    cases n with
    | zero => rfl
    | succ n => simp only [List.map_cons, List.eraseIdx, ih]

theorem eraseIdx_flattenFrom (value : GroupList) (k i j : Nat) (gi : List MemberId)
    (hg : value.get? i = some gi) (hj : j < gi.length) :
    (flattenFrom k true value).eraseIdx
        (i + 1 + ((value.take i).map List.length).sum + j)
      = flattenFrom k true (value.set i (gi.eraseIdx j)) := by
  induction value generalizing k i with
  | nil => cases hg
  | cons g gs ih =>
    cases i with
    | zero =>
      simp only [List.get?] at hg
      injection hg with hg
      subst hg
      rw [flattenFrom_true_cons]
      have harith : 0 + 1 + (((g :: gs).take 0).map List.length).sum + j = j + 1 := by
        simp only [List.take_zero, List.map_nil, List.sum_nil]
        omega
      rw [harith]
      simp only [List.eraseIdx]
      rw [eraseIdx_append_left _ _ j (by simpa using hj), map_eraseIdx]
      rw [List.set_cons_zero, flattenFrom_true_cons]
    | succ i =>
      simp only [List.get?] at hg
      rw [flattenFrom_true_cons]
      have harith : i + 1 + 1 + (((g :: gs).take (i + 1)).map List.length).sum + j
          = (g.length + (i + 1 + ((gs.take i).map List.length).sum + j)) + 1 := by
        simp only [List.take_succ_cons, List.map_cons, List.sum_cons]
        omega
      rw [harith]
      simp only [List.eraseIdx]
      have hlm : g.length + (i + 1 + ((gs.take i).map List.length).sum + j)
          = (g.map (fun u => FlatItem.member u k)).length
              + (i + 1 + ((gs.take i).map List.length).sum + j) := by
        simp
      rw [hlm, eraseIdx_append_right_offset, ih (k + 1) i hg]
      rw [List.set_cons_succ, flattenFrom_true_cons]

theorem length_eraseIdx_le {α : Type} (l : List α) (n : Nat) :
    (l.eraseIdx n).length ≤ l.length := by
  induction l generalizing n with
  | nil => simp [List.eraseIdx]
  | cons a l ih =>
    cases n with
    | zero => simp [List.eraseIdx]
    | succ n =>
      simp only [List.eraseIdx, List.length_cons]
      have := ih n
      omega

theorem take_of_length_le' {α : Type} (l : List α) (n : Nat) (h : l.length ≤ n) :
    l.take n = l := by
  induction l generalizing n with
  | nil => simp
  | cons a l ih =>
    cases n with
    | zero => simp at h
    | succ n => simp only [List.take]; rw [ih n (by simp at h; omega)]

theorem drop_of_length_le' {α : Type} (l : List α) (n : Nat) (h : l.length ≤ n) :
    l.drop n = [] := by
  induction l generalizing n with
  | nil => simp
  | cons a l ih =>
    cases n with
    | zero => simp at h
    | succ n => simp only [List.drop]; exact ih n (by simp at h; omega)

/-- Moving an element to an index at or beyond the end of the list places it
at the very end. -/
theorem arrayMove_to_end (l : List FlatItem) (oldIdx newIdx : Nat) (x : FlatItem)
    (hget : l.get? oldIdx = some x) (hle : l.length ≤ newIdx) :
    arrayMoveImmutable l oldIdx newIdx = l.eraseIdx oldIdx ++ [x] := by
  unfold arrayMoveImmutable
  rw [hget]
  have hr : (l.eraseIdx oldIdx).length ≤ newIdx :=
    le_trans (length_eraseIdx_le l oldIdx) hle
  simp only []
  rw [take_of_length_le' _ _ hr, drop_of_length_le' _ _ hr]

/-- Unflattening the multi-group flattening (with no pruning) restores the
Group List. -/
theorem unflattenRev_toPlainArray (v : GroupList) : unflattenRev (toPlainArray v) [] = v := by
  rw [toPlainArray, flatten, ← List.append_nil (flattenFrom 0 true v),
    unflattenRev_flattenFrom v 0 [] []]
  simp [unflattenRev]

/-- A member item appended after the full flattening joins the last group (or
forms the first group when there is none). -/
theorem unflattenRev_toPlainArray_concat_member (v : GroupList) (x : MemberId) (t : Nat) :
    unflattenRev (toPlainArray v ++ [FlatItem.member x t]) [] = appendToLastGroup v x := by
  rw [toPlainArray, flatten, unflattenRev_flattenFrom v 0 [FlatItem.member x t] []]
  rcases List.eq_nil_or_concat v with hv | ⟨vs, g, hv⟩
  · subst hv
    rfl
  · subst hv
    simp only [List.append_nil, List.reverse_append, List.reverse_cons, List.reverse_nil,
      List.nil_append, List.singleton_append, unflattenRev, List.reverse_reverse]
    simp [appendToLastGroup, List.concat_eq_append, List.reverse_append,
      List.getLast?_concat, List.dropLast_concat]

/-- C7: a reorder whose drop index lies beyond the whole flat sequence
(`newIndex > items.length`, only reachable with the multi-group add-group
affordance enabled) appends a new trailing group containing only the moved
member; a drop at the end of the flat sequence (`newIndex = items.length`,
the furthest position without that affordance) appends the moved member to
the last existing group. In both cases the moved member is first removed from
its owning group and empty groups are pruned. -/
theorem c7_reorder_past_end (value : GroupList) (i j newIndex : Nat)
    (gi : List MemberId) (x : MemberId)
    (hg : value.get? i = some gi) (hx : gi.get? j = some x) :
    (flatLen value < newIndex →
      onSortEnd value (flatPosOfMember value i j) newIndex
        = ((value.set i (gi.eraseIdx j)).filter (fun g => !g.isEmpty)) ++ [[x]]) ∧
    onSortEnd value (flatPosOfMember value i j) (flatLen value)
      = (appendToLastGroup (value.set i (gi.eraseIdx j)) x).filter (fun g => !g.isEmpty) := by
  have hjlen : j < gi.length := get?_some_lt gi j x hx
  have hpos : (toPlainArray value).get? (flatPosOfMember value i j)
      = some (FlatItem.member x i) := by
    have h := get?_flattenFrom value 0 i j gi x hg hx
    rw [Nat.zero_add] at h
    exact h
  have herase : (toPlainArray value).eraseIdx (flatPosOfMember value i j)
      = toPlainArray (value.set i (gi.eraseIdx j)) :=
    eraseIdx_flattenFrom value 0 i j gi hg hjlen
  have hlen : (toPlainArray value).length = flatLen value := length_flattenFrom value 0
  constructor
  · intro hnew
    simp only [onSortEnd]
    rw [arrayMove_to_end _ _ _ _ hpos (by rw [hlen]; omega), herase]
    have hflag : decide ((toPlainArray value).length < newIndex) = true := by
      rw [hlen]
      exact decide_eq_true hnew
    rw [hflag]
    simp only [fromPlainArray, List.getLast?_concat, List.dropLast_concat, if_true]
    rw [unflattenRev_toPlainArray]
  · simp only [onSortEnd]
    rw [arrayMove_to_end _ _ _ _ hpos (by rw [hlen]), herase]
    have hflag : decide ((toPlainArray value).length < flatLen value) = false := by
      rw [hlen]
      simp
    rw [hflag]
    simp only [fromPlainArray, List.getLast?_concat, if_false, Bool.false_eq_true]
    rw [unflattenRev_toPlainArray_concat_member]

/-- Witness for C7 at a concrete input: in `[["u1","u2"],["u3"]]` (flat
length 5) moving u1 (flat position 1) to drop index 6 creates the new
trailing group `["u1"]`, while moving it to drop index 5 appends it to the
last existing group. -/
theorem c7_reorder_past_end_witness :
    onSortEnd [["u1", "u2"], ["u3"]] 1 6 = [["u2"], ["u3"], ["u1"]] ∧
    onSortEnd [["u1", "u2"], ["u3"]] 1 5 = [["u2"], ["u3", "u1"]] :=
  ⟨(c7_reorder_past_end [["u1", "u2"], ["u3"]] 0 0 6 ["u1", "u2"] "u1" rfl rfl).1
      (by decide),
   (c7_reorder_past_end [["u1", "u2"], ["u3"]] 0 0 6 ["u1", "u2"] "u1" rfl rfl).2⟩

/-! ## The debounced preview synchronizer -/

/-- C2 (counterexample): the claim says the settle step never fires for a
stale result; but with snapshot B current (`isOpen` still false) and the
request for the different snapshot A resolving, the source's resolve handler
sets the visibility flag anyway — the settle step fires for A's result. -/
theorem c2_stale_counterexample :
    snapA ≠ snapB ∧
    (handlePreviewResolved { isOpen := false, params := snapB } snapA).isOpen = true := by
  constructor
  · decide
  · rfl

/-- C2 (amended): the settle step fires for every resolving preview request,
stale or not — the resolve handler sets the visibility flag unconditionally
and performs no comparison between the snapshot the result was computed for
and the current target snapshot (which it leaves untouched). -/
theorem c2_settle_unconditional (st : OverrideFormState) (resolvedFor : RotationParams) :
    (handlePreviewResolved st resolvedFor).isOpen = true ∧
    (handlePreviewResolved st resolvedFor).params = st.params :=
  ⟨rfl, rfl⟩

theorem fireCount_coalesce (w : Nat) (t : Nat) (ts : List Nat)
    (h : List.Chain' (fun a b => b < a + w) (t :: ts)) :
    fireCount w (t :: ts) = 1 := by
  induction ts generalizing t with
  | nil => rfl
  | cons t2 rest ih =>
    rw [List.chain'_cons] at h
    simp only [fireCount, if_pos h.1]
    rw [ih t2 h.2]

theorem fireCount_spaced (w : Nat) (ts : List Nat)
    (h : List.Chain' (fun a b => a + w ≤ b) ts) :
    fireCount w ts = ts.length := by
  induction ts with
  | nil => rfl
  | cons t1 rest ih =>
    cases rest with
    | nil => rfl
    | cons t2 rest' =>
      rw [List.chain'_cons] at h
      obtain ⟨h1, h2⟩ := h
      have hneg : ¬ t2 < t1 + w := by omega
      simp only [fireCount, if_neg hneg, List.length_cons]
      rw [ih h2]
      simp only [List.length_cons]
      omega

/-- C4: debounce coalescing. When every change of a nonempty burst arrives
strictly within the window after the previous one, exactly one preview
request is issued; when every gap is at least the window, each change issues
its own request — N changes, N requests. -/
theorem c4_debounce_coalescing (w : Nat) (ts : List Nat) :
    (ts ≠ [] → List.Chain' (fun a b => b < a + w) ts → fireCount w ts = 1) ∧
    (List.Chain' (fun a b => a + w ≤ b) ts → fireCount w ts = ts.length) := by
  constructor
  · intro hne hch
    match ts, hne with
    | t :: ts', _ => exact fireCount_coalesce w t ts' hch
  · exact fireCount_spaced w ts

/-- Witness for C4 at the spec's concrete scenario shape: three changes at
0, 50 and 100 ms inside a 200 ms window issue one request; three changes at
0, 250 and 500 ms issue three. -/
theorem c4_debounce_coalescing_witness :
    fireCount 200 [0, 50, 100] = 1 ∧ fireCount 200 [0, 250, 500] = 3 :=
  ⟨(c4_debounce_coalescing 200 [0, 50, 100]).1 (by decide)
      (by norm_num [List.chain'_cons, List.chain'_singleton]),
   (c4_debounce_coalescing 200 [0, 250, 500]).2
      (by norm_num [List.chain'_cons, List.chain'_singleton])⟩

/-- C8 (counterexample): the claim of at most one in-flight request fails.
On a new-override form the mount effect issues a request at time 0 and the
mount run of the params effect schedules the debounced update, which fires at
time 200; with a 300 ms request latency both requests are in flight at time
250 — the source neither cancels nor awaits the outstanding request. -/
theorem c8_single_inflight_counterexample :
    ¬ inFlightCount (requestIssueTimes true 200 [0]) 300 250 ≤ 1 := by
  decide

theorem timerPendingCount_eq_zero_of_lt (w t : Nat) (ts : List Nat) (t1 : Nat)
    (h : List.Chain' (fun a b => a ≤ b) (t1 :: ts)) (hlt : t < t1) :
    timerPendingCount w t (t1 :: ts) = 0 := by
  induction ts generalizing t1 with
  | nil =>
    have hneg : ¬ (t1 ≤ t ∧ t < t1 + w) := by
      intro hc
      omega
    simp only [timerPendingCount, if_neg hneg]
  | cons t2 rest ih =>
    rw [List.chain'_cons] at h
    obtain ⟨h1, h2⟩ := h
    have hneg : ¬ (t1 ≤ t ∧ t < min (t1 + w) t2) := by
      intro hc
      omega
    simp only [timerPendingCount, if_neg hneg]
    rw [ih t2 h2 (by omega)]

/-- C8 (amended): at most one debounce timer is pending at any time — the
timer set by a change is reset by the next change before it could overlap
with the timer that change sets. (The other half of the original claim, at
most one in-flight request, is refuted by the counterexample.) -/
theorem c8_single_timer (w t : Nat) (ts : List Nat)
    (h : List.Chain' (fun a b => a ≤ b) ts) :
    timerPendingCount w t ts ≤ 1 := by
  induction ts with
  | nil => simp [timerPendingCount]
  | cons t1 rest ih =>
    cases rest with
    | nil =>
      simp only [timerPendingCount]
      split
      · omega
      · omega
    | cons t2 rest' =>
      rw [List.chain'_cons] at h
      obtain ⟨h1, h2⟩ := h
      by_cases hc : t1 ≤ t ∧ t < min (t1 + w) t2
      · obtain ⟨hc1, hc2⟩ := hc
        simp only [timerPendingCount, if_pos (And.intro hc1 hc2)]
        rw [timerPendingCount_eq_zero_of_lt w t rest' t2 h2 (by omega)]
      · simp only [timerPendingCount, if_neg hc]
        have := ih h2
        omega

/-- Witness for C8 (amended) at a concrete input: with changes at 0 and
50 ms, at most one timer is pending at time 100. -/
theorem c8_single_timer_witness : timerPendingCount 200 100 [0, 50] ≤ 1 :=
  c8_single_timer 200 100 [0, 50] (by norm_num [List.chain'_cons, List.chain'_singleton])

/-- C9 (counterexample): the claim says the Group List is created empty (the
empty sequence of groups) for a new override; the source creates it as
`[[]]` — a list holding one empty group, not the empty sequence. -/
theorem c9_initial_empty_counterexample : initialUserGroups ≠ ([] : GroupList) := by
  decide

/-- C9 (amended): when the form opens, the Group List is created as a single
empty group `[[]]` (for a new override), or is replaced wholesale by the
persisted shift's `rolling_users` once that shift is available; when no
persisted shift exists the hydration effect leaves it untouched, so before
the first engine operation it contains no other content. -/
theorem c9_initial_and_hydration :
    initialUserGroups = [[]] ∧
    (∀ (s : ShiftData) (cur : GroupList), hydrateUserGroups (some s) cur = s.rolling_users) ∧
    (∀ cur : GroupList, hydrateUserGroups none cur = cur) :=
  ⟨rfl, fun _ _ => rfl, fun _ => rfl⟩
